import Mathlib

/-!
# Verification of the opusmeta tag-editing library

A shallow embedding of `src/lib.rs` and `src/picture.rs` from the
`opusmeta` crate.  Rust `String`s are modelled as lists of UTF-8 bytes
(`RStr`), `Vec<u8>` as `List Nat` with every element `< 256`, `u32`
arithmetic as `Nat` with explicit bounds, and fallible functions return
`Except`.  The external collaborators (the standard library's UTF-8
validation and the base64 crate's standard padded alphabet) are modelled
concretely so that every definition is executable.
-/

set_option maxHeartbeats 1000000

namespace Opusmeta

/-- Rust `String` / `&str`, modelled as its UTF-8 byte sequence. -/
abbrev RStr := List Nat

/-- ASCII bytes of a Lean string literal (used only for ASCII literals
appearing in the source, such as `"OpusTags"`). -/
def strBytes (s : String) : RStr := s.data.map Char.toNat

/-- `str::make_ascii_lowercase`: map `'A'..'Z'` to `'a'..'z'`, leave every
other byte alone. -/
def lowerAscii (s : RStr) : RStr :=
  s.map (fun b => if 65 ≤ b ∧ b ≤ 90 then b + 32 else b)

/-- State machine for UTF-8 validation: `need` is the number of
continuation bytes still required, and `lo`/`hi` bound the next byte when
`need > 0` (the first continuation byte of a sequence has a restricted
range that excludes overlong encodings, surrogates and values beyond
U+10FFFF; later ones are plain `0x80..0xBF`). -/
def utf8Aux : List Nat → Nat → Nat → Nat → Bool
  | [], need, _, _ => need = 0
  | b :: r, 0, _, _ =>
    if b ≤ 127 then utf8Aux r 0 0 0
    else if b ≤ 193 then false
    else if b ≤ 223 then utf8Aux r 1 128 191
    else if b = 224 then utf8Aux r 2 160 191
    else if b ≤ 236 then utf8Aux r 2 128 191
    else if b = 237 then utf8Aux r 2 128 159
    else if b ≤ 239 then utf8Aux r 2 128 191
    else if b = 240 then utf8Aux r 3 144 191
    else if b ≤ 243 then utf8Aux r 3 128 191
    else if b = 244 then utf8Aux r 3 128 143
    else false
  | b :: r, need + 1, lo, hi =>
    if lo ≤ b ∧ b ≤ hi then utf8Aux r need 128 191 else false

/-- UTF-8 validity of a byte sequence, as checked by Rust's
`String::from_utf8` (an external standard-library collaborator). -/
def utf8Valid (l : List Nat) : Bool := utf8Aux l 0 0 0

/-- Little-endian bytes of a `u32` (`u32::to_le_bytes`). -/
def le32 (n : Nat) : List Nat :=
  [n % 256, n / 256 % 256, n / 65536 % 256, n / 16777216 % 256]

/-- `u32::from_le_bytes` on a 4-byte buffer. -/
def fromLe32 (l : List Nat) : Nat :=
  match l with
  | [a, b, c, d] => a + 256 * b + 65536 * c + 16777216 * d
  | _ => 0

/-- Big-endian bytes of a `u32` (`u32::to_be_bytes`). -/
def be32 (n : Nat) : List Nat :=
  [n / 16777216 % 256, n / 65536 % 256, n / 256 % 256, n % 256]

/-- `u32::from_be_bytes` on a 4-byte buffer. -/
def fromBe32 (l : List Nat) : Nat :=
  match l with
  | [a, b, c, d] => 16777216 * a + 65536 * b + 256 * c + d
  | _ => 0

theorem fromLe32_le32 (n : Nat) (h : n < 4294967296) : fromLe32 (le32 n) = n := by
  simp only [le32, fromLe32]
  omega

theorem fromBe32_be32 (n : Nat) (h : n < 4294967296) : fromBe32 (be32 n) = n := by
  simp only [be32, fromBe32]
  omega

theorem le32_length (n : Nat) : (le32 n).length = 4 := rfl

theorem be32_length (n : Nat) : (be32 n).length = 4 := rfl

theorem utf8Aux_append (s : List Nat) :
    ∀ t need lo hi, utf8Aux s need lo hi = true → utf8Valid t = true →
      utf8Aux (s ++ t) need lo hi = true := by
  induction s with
  | nil =>
    intro t need lo hi hs ht
    simp only [utf8Aux, decide_eq_true_eq] at hs
    subst hs
    rw [List.nil_append]
    unfold utf8Valid at ht
    cases t with
    | nil => rfl
    | cons b r => simp only [utf8Aux] at ht ⊢; exact ht
  | cons b r ih =>
    intro t need lo hi hs ht
    rw [List.cons_append]
    match need with
    | 0 =>
      simp only [utf8Aux] at hs ⊢
      split_ifs at hs ⊢ <;> exact ih t _ _ _ hs ht
    | need + 1 =>
      simp only [utf8Aux] at hs ⊢
      split_ifs at hs ⊢
      exact ih t _ _ _ hs ht

/-- UTF-8 validity is preserved by concatenation. -/
theorem utf8Valid_append (s t : List Nat) (hs : utf8Valid s) (ht : utf8Valid t) :
    utf8Valid (s ++ t) := utf8Aux_append s t 0 0 0 hs ht

theorem utf8Aux_lt256 (s : List Nat) :
    ∀ need lo hi, hi ≤ 255 → utf8Aux s need lo hi = true → ∀ b ∈ s, b < 256 := by
  induction s with
  | nil => intro need lo hi _ _ b hb; simp at hb
  | cons b r ih =>
    intro need lo hi hhi hs x hx
    rcases List.mem_cons.mp hx with rfl | hxr
    · match need with
      | 0 =>
        simp only [utf8Aux] at hs
        split_ifs at hs <;> omega
      | need + 1 =>
        simp only [utf8Aux] at hs
        split_ifs at hs with h
        omega
    · match need with
      | 0 =>
        simp only [utf8Aux] at hs
        split_ifs at hs <;> exact ih _ _ _ (by omega) hs x hxr
      | need + 1 =>
        simp only [utf8Aux] at hs
        split_ifs at hs with h
        exact ih _ _ _ (by omega) hs x hxr

/-- Every byte of a valid UTF-8 sequence is below 256. -/
theorem utf8Valid_lt256 (s : List Nat) (hs : utf8Valid s) :
    ∀ b ∈ s, b < 256 := utf8Aux_lt256 s 0 0 0 (by omega) hs

/-- A 6-bit value's ASCII byte in the standard base64 alphabet
(`A-Z a-z 0-9 + /`).  Models the external `base64` crate's
`BASE64_STANDARD` engine. -/
def b64char (n : Nat) : Nat :=
  if n < 26 then 65 + n
  else if n < 52 then 97 + (n - 26)
  else if n < 62 then 48 + (n - 52)
  else if n = 62 then 43
  else 47

/-- Inverse alphabet lookup for standard base64. -/
def b64val (c : Nat) : Option Nat :=
  if 65 ≤ c ∧ c ≤ 90 then some (c - 65)
  else if 97 ≤ c ∧ c ≤ 122 then some (26 + (c - 97))
  else if 48 ≤ c ∧ c ≤ 57 then some (52 + (c - 48))
  else if c = 43 then some 62
  else if c = 47 then some 63
  else none

/-- Standard padded base64 encoding of a byte sequence (the `=` pad byte
is 61). -/
def b64encode : List Nat → List Nat
  | a :: b :: c :: rest =>
    b64char (a / 4) :: b64char (a % 4 * 16 + b / 16) ::
      b64char (b % 16 * 4 + c / 64) :: b64char (c % 64) :: b64encode rest
  | [a, b] => [b64char (a / 4), b64char (a % 4 * 16 + b / 16), b64char (b % 16 * 4), 61]
  | [a] => [b64char (a / 4), b64char (a % 4 * 16), 61, 61]
  | [] => []

/-- Standard padded base64 decoding: requires a multiple-of-4 length,
padding only at the very end, and zero trailing bits (the defaults of the
`base64` crate's standard engine). -/
def b64decode : List Nat → Option (List Nat)
  | [] => some []
  | c1 :: c2 :: c3 :: c4 :: rest =>
    (b64val c1).bind fun s1 =>
    (b64val c2).bind fun s2 =>
    if c3 = 61 then
      if c4 = 61 ∧ rest = [] ∧ s2 % 16 = 0 then some [s1 * 4 + s2 / 16] else none
    else
      (b64val c3).bind fun s3 =>
      if c4 = 61 then
        if rest = [] ∧ s3 % 4 = 0 then some [s1 * 4 + s2 / 16, s2 % 16 * 16 + s3 / 4]
        else none
      else
        (b64val c4).bind fun s4 =>
        (b64decode rest).map fun r =>
          (s1 * 4 + s2 / 16) :: (s2 % 16 * 16 + s3 / 4) :: (s3 % 4 * 64 + s4) :: r
  | _ => none

theorem b64val_b64char (n : Nat) (h : n < 64) : b64val (b64char n) = some n := by
  unfold b64char b64val
  split_ifs <;> first | (simp only [Option.some.injEq]; omega) | (exfalso; omega)

theorem b64char_ne_61 (n : Nat) (h : n < 64) : b64char n ≠ 61 := by
  unfold b64char
  split_ifs <;> omega

/-- Decoding inverts encoding (for genuine byte sequences). -/
theorem b64decode_b64encode (l : List Nat) (hl : ∀ b ∈ l, b < 256) :
    b64decode (b64encode l) = some l := by
  induction l using b64encode.induct with
  | case4 => rfl
  | case1 a b c rest ih =>
    have ha : a < 256 := hl a (by simp)
    have hb : b < 256 := hl b (by simp)
    have hc : c < 256 := hl c (by simp)
    have ih2 := ih (fun x hx => hl x (by simp [hx]))
    rw [b64encode, b64decode]
    rw [b64val_b64char _ (by omega), b64val_b64char _ (by omega),
      b64val_b64char _ (by omega), b64val_b64char _ (by omega)]
    simp only [Option.some_bind]
    rw [if_neg (b64char_ne_61 _ (by omega)), if_neg (b64char_ne_61 _ (by omega))]
    rw [ih2]
    simp only [Option.map_some', Option.some.injEq, List.cons.injEq]
    refine ⟨by omega, by omega, by omega, trivial⟩
  | case2 a b =>
    have ha : a < 256 := hl a (by simp)
    have hb : b < 256 := hl b (by simp)
    have e1 : b % 16 * 4 % 4 = 0 := by omega
    rw [b64encode, b64decode]
    rw [b64val_b64char _ (by omega), b64val_b64char _ (by omega),
      b64val_b64char _ (by omega)]
    simp only [Option.some_bind]
    rw [if_neg (b64char_ne_61 _ (by omega))]
    simp [e1]
    omega
  | case3 a =>
    have ha : a < 256 := hl a (by simp)
    have e1 : a % 4 * 16 % 16 = 0 := by omega
    rw [b64encode, b64decode]
    rw [b64val_b64char _ (by omega), b64val_b64char _ (by omega)]
    simp only [Option.some_bind]
    simp [e1]
    omega

deriving instance DecidableEq for Except

/-- `PictureError` from `src/picture.rs`. -/
inductive PictureError where
  | InvalidPictureType
  | MimeTooLong
  | DescriptionTooLong
  | DataTooLong
  | Base64DecodeError
  | NoMimeType
  deriving DecidableEq

/-- The crate-wide `Error` enum from `src/lib.rs` (payloads kept where a
claim inspects them). -/
inductive Error where
  | ReadError
  | NotOpus
  | MissingPacket
  | DataError
  | MalformedComment (line : RStr)
  | UTFError (bytes : RStr)
  | TooBigError
  | PictureErr (e : PictureError)
  | PlatformError
  deriving DecidableEq

/-- `PictureType` from `src/picture.rs` (APIC picture type, `repr(u32)`
discriminants 0 through 20). -/
inductive PictureType where
  | Other
  | FileIcon
  | OtherIcon
  | CoverFront
  | CoverBack
  | LeafletPage
  | Media
  | LeadArtist
  | Artist
  | Conductor
  | BandOrchestra
  | Composter
  | Lyricist
  | RecordingLocation
  | DuringRecording
  | DuringPerformance
  | MovieCapture
  | BrightColouredFish
  | Illustration
  | BandLogo
  | PublisherLogo
  deriving DecidableEq

/-- The `repr(u32)` discriminant of a `PictureType`. -/
def PictureType.toU32 : PictureType → Nat
  | .Other => 0
  | .FileIcon => 1
  | .OtherIcon => 2
  | .CoverFront => 3
  | .CoverBack => 4
  | .LeafletPage => 5
  | .Media => 6
  | .LeadArtist => 7
  | .Artist => 8
  | .Conductor => 9
  | .BandOrchestra => 10
  | .Composter => 11
  | .Lyricist => 12
  | .RecordingLocation => 13
  | .DuringRecording => 14
  | .DuringPerformance => 15
  | .MovieCapture => 16
  | .BrightColouredFish => 17
  | .Illustration => 18
  | .BandLogo => 19
  | .PublisherLogo => 20

/-- The `std::mem::transmute::<u32, PictureType>` step of
`PictureType::from_u32`: the variant whose discriminant is `num`.  Only
ever applied under the guard `num ≤ 20`; the default arm is unreachable
there. -/
def PictureType.transmuteU32 (num : Nat) : PictureType :=
  match num with
  | 0 => .Other
  | 1 => .FileIcon
  | 2 => .OtherIcon
  | 3 => .CoverFront
  | 4 => .CoverBack
  | 5 => .LeafletPage
  | 6 => .Media
  | 7 => .LeadArtist
  | 8 => .Artist
  | 9 => .Conductor
  | 10 => .BandOrchestra
  | 11 => .Composter
  | 12 => .Lyricist
  | 13 => .RecordingLocation
  | 14 => .DuringRecording
  | 15 => .DuringPerformance
  | 16 => .MovieCapture
  | 17 => .BrightColouredFish
  | 18 => .Illustration
  | 19 => .BandLogo
  | _ => .PublisherLogo

/-- `PictureType::from_u32` from `src/picture.rs`. -/
def PictureType.from_u32 (num : Nat) : Except PictureError PictureType :=
  if num > 20 then .error .InvalidPictureType
  else .ok (PictureType.transmuteU32 num)

/-- The `Picture` struct from `src/picture.rs`.  The FLAC geometry fields
are not part of the struct; they exist only on the wire. -/
structure Picture where
  picture_type : PictureType
  mime_type : RStr
  description : RStr
  data : List Nat
  deriving DecidableEq

/-- `Cursor::read_exact` into an `n`-byte buffer: yields the bytes read
and the remaining input, or an IO error (`Error::DataError`) when the
input is too short. -/
def readExact (n : Nat) (l : List Nat) : Except Error (List Nat × List Nat) :=
  if n ≤ l.length then .ok (l.take n, l.drop n) else .error .DataError

/-- `String::from_utf8`, wrapped into the crate error
(`Error::UTFError` keeps the offending bytes). -/
def fromUtf8 (l : List Nat) : Except Error RStr :=
  if utf8Valid l then .ok l else .error (.UTFError l)

/-- `Picture::from_bytes` from `src/picture.rs`.  `seek_relative(16)`
(skipping the geometry fields) is a plain `drop`: a `Cursor` seek past the
end succeeds, and any subsequent `read_exact` then fails. -/
def Picture.from_bytes (input : List Nat) : Except Error Picture := do
  let (tb, l) ← readExact 4 input
  let picture_type ← (PictureType.from_u32 (fromBe32 tb)).mapError Error.PictureErr
  let (mlb, l) ← readExact 4 l
  let (mb, l) ← readExact (fromBe32 mlb) l
  let mime_type ← fromUtf8 mb
  let (dlb, l) ← readExact 4 l
  let (db, l) ← readExact (fromBe32 dlb) l
  let description ← fromUtf8 db
  let l := l.drop 16
  let (dalb, l) ← readExact 4 l
  let (d, _) ← readExact (fromBe32 dalb) l
  .ok ⟨picture_type, mime_type, description, d⟩

/-- `Picture::to_bytes` from `src/picture.rs`: big-endian type code,
length-prefixed mime and description, 16 zero geometry bytes, and
length-prefixed data. -/
def Picture.to_bytes (p : Picture) : Except PictureError (List Nat) :=
  if p.mime_type.length < 4294967296 then
    if p.description.length < 4294967296 then
      if p.data.length < 4294967296 then
        .ok (be32 p.picture_type.toU32 ++ be32 p.mime_type.length ++ p.mime_type
          ++ be32 p.description.length ++ p.description
          ++ List.replicate 16 0
          ++ be32 p.data.length ++ p.data)
      else .error .DataTooLong
    else .error .DescriptionTooLong
  else .error .MimeTooLong

/-- `Picture::to_bytes` with the 16 geometry bytes left abstract: the
source always writes 16 zeros there and `from_bytes` skips whatever is
present.  Used to state the geometry clauses of the round-trip claim. -/
def Picture.bytesWithGeo (p : Picture) (geo : List Nat) : List Nat :=
  be32 p.picture_type.toU32 ++ be32 p.mime_type.length ++ p.mime_type
    ++ be32 p.description.length ++ p.description ++ geo
    ++ be32 p.data.length ++ p.data

/-- `Picture::to_base64`. -/
def Picture.to_base64 (p : Picture) : Except Error RStr := do
  let bytes ← p.to_bytes.mapError Error.PictureErr
  .ok (b64encode bytes)

/-- `Picture::from_base64`. -/
def Picture.from_base64 (s : RStr) : Except Error Picture :=
  match b64decode s with
  | some bytes => Picture.from_bytes bytes
  | none => .error (.PictureErr .Base64DecodeError)

/-- Association-list model of `HashMap<String, Vec<String>>`: keys are
kept unique; a missing key is appended at the end.  The Rust map's
iteration order is arbitrary, so claims that depend on iteration order
are stated order-insensitively. -/
abbrev CommentMap := List (RStr × List RStr)

def mapGet (m : CommentMap) (k : RStr) : Option (List RStr) :=
  match m with
  | [] => none
  | (k', vs) :: rest => if k' = k then some vs else mapGet rest k

/-- `map.entry(k).and_modify(f).or_insert(d)`. -/
def mapUpsert (m : CommentMap) (k : RStr) (f : List RStr → List RStr)
    (d : List RStr) : CommentMap :=
  match m with
  | [] => [(k, d)]
  | (k', vs) :: rest =>
    if k' = k then (k', f vs) :: rest else (k', vs) :: mapUpsert rest k f d

/-- `map.remove(k)`, dropping the key entirely. -/
def mapRemove (m : CommentMap) (k : RStr) : CommentMap :=
  match m with
  | [] => []
  | (k', vs) :: rest => if k' = k then rest else (k', vs) :: mapRemove rest k

/-- In-place mutation of an existing key's vector through
`map.get_mut(k)` (no-op when the key is absent). -/
def mapSet (m : CommentMap) (k : RStr) (nv : List RStr) : CommentMap :=
  match m with
  | [] => []
  | (k', vs) :: rest => if k' = k then (k', nv) :: rest else (k', vs) :: mapSet rest k nv

/-- The `Tag` struct from `src/lib.rs`. -/
structure Tag where
  vendor : RStr
  comments : CommentMap
  deriving DecidableEq

/-- `Tag::new`: lowercase every key and accumulate same-key values in
the order given. -/
def Tag.new (vendor : RStr) (comments : List (RStr × RStr)) : Tag :=
  { vendor := vendor
    comments := comments.foldl
      (fun m kv => mapUpsert m (lowerAscii kv.1) (fun v => v ++ [kv.2]) [kv.2]) [] }

/-- `Tag::add_one`. -/
def Tag.add_one (t : Tag) (tag : RStr) (value : RStr) : Tag :=
  { t with comments := mapUpsert t.comments (lowerAscii tag) (fun v => v ++ [value]) [value] }

/-- `Tag::add_many`: `and_modify(append values).or_insert(values)` — note
the insert arm inserts `values` as given, even when it is empty. -/
def Tag.add_many (t : Tag) (tag : RStr) (values : List RStr) : Tag :=
  { t with comments := mapUpsert t.comments (lowerAscii tag) (fun v => v ++ values) values }

/-- `Tag::get`. -/
def Tag.get (t : Tag) (tag : RStr) : Option (List RStr) :=
  mapGet t.comments (lowerAscii tag)

/-- `Tag::remove_entries`: returns the removed values and the new state. -/
def Tag.remove_entries (t : Tag) (tag : RStr) : Option (List RStr) × Tag :=
  (mapGet t.comments (lowerAscii tag),
    { t with comments := mapRemove t.comments (lowerAscii tag) })

/-- `Tag::get_vendor`. -/
def Tag.get_vendor (t : Tag) : RStr := t.vendor

/-- `Tag::set_vendor`. -/
def Tag.set_vendor (t : Tag) (newVendor : RStr) : Tag := { t with vendor := newVendor }

/-- The comment key `"metadata_block_picture"`. -/
def mbpKey : RStr := strBytes "metadata_block_picture"

/-- Does this stored string decode to a picture of the requested type?
One test of the scan loop in `remove_picture_type`. -/
def matchesType (s : RStr) (pt : PictureType) : Bool :=
  match Picture.from_base64 s with
  | .ok pic => pic.picture_type = pt
  | .error _ => false

/-- The `for (index, data)` loop of `remove_picture_type`:
`index_to_remove` starts at 0 and is overwritten by every decodable
match, ending at the last match (or staying 0). -/
def removalIndexAux (pt : PictureType) : List RStr → Nat → Nat → Nat
  | [], _, cur => cur
  | s :: rest, i, cur =>
    removalIndexAux pt rest (i + 1) (if matchesType s pt then i else cur)

def removalIndex (pics : List RStr) (pt : PictureType) : Nat :=
  removalIndexAux pt pics 0 0

/-- `Tag::remove_picture_type`.  `Vec::remove(i)` panics when `i` is out
of bounds (possible only when the stored vector is empty); the panic is
modelled as `none`.  On the non-panicking path the removed string is
decoded and the decode result is returned, with the state already
mutated. -/
def Tag.remove_picture_type (t : Tag) (pt : PictureType) :
    Option (Except Error (Option Picture) × Tag) :=
  match mapGet t.comments mbpKey with
  | none => some (.ok none, t)
  | some pics =>
    let i := removalIndex pics pt
    if h : i < pics.length then
      some ((Picture.from_base64 (pics.get ⟨i, h⟩)).map Option.some,
        { t with comments := mapSet t.comments mbpKey (pics.eraseIdx i) })
    else none

/-- `Tag::get_picture_type`'s scan: first decodable entry of the type. -/
def findPicAux (pics : List RStr) (pt : PictureType) : Option Picture :=
  match pics with
  | [] => none
  | s :: rest =>
    match Picture.from_base64 s with
    | .ok decoded =>
      if decoded.picture_type = pt then some decoded else findPicAux rest pt
    | .error _ => findPicAux rest pt

/-- `Tag::get_picture_type`. -/
def Tag.get_picture_type (t : Tag) (pt : PictureType) : Option Picture :=
  match mapGet t.comments mbpKey with
  | none => none
  | some pics => findPicAux pics pt

/-- `Tag::pictures`: decode every stored entry, skipping failures. -/
def Tag.pictures (t : Tag) : List Picture :=
  match mapGet t.comments mbpKey with
  | none => []
  | some raw => raw.filterMap (fun s => (Picture.from_base64 s).toOption)

/-- `Tag::add_picture`: remove any picture of the same type (the `?`
propagates its error with the removal already applied), then encode and
append under `METADATA_BLOCK_PICTURE`. -/
def Tag.add_picture (t : Tag) (p : Picture) : Option (Except Error Unit × Tag) :=
  match t.remove_picture_type p.picture_type with
  | none => none
  | some (.error e, t') => some (.error e, t')
  | some (.ok _, t') =>
    match p.to_base64 with
    | .error e => some (.error e, t')
    | .ok data => some (.ok (), t'.add_one (strBytes "METADATA_BLOCK_PICTURE") data)

/-- An ogg packet as surfaced by the external `ogg` crate's reader. -/
structure Packet where
  data : List Nat
  serial : Nat
  absgp : Nat
  lastInStream : Bool
  lastInPage : Bool
  deriving DecidableEq

/-- `ogg::PacketWriteEndInfo`. -/
inductive PacketWriteEndInfo where
  | NormalPacket
  | EndPage
  | EndStream
  deriving DecidableEq

/-- `get_end_info` from `src/lib.rs`. -/
def get_end_info (p : Packet) : PacketWriteEndInfo :=
  if p.lastInStream then .EndStream
  else if p.lastInPage then .EndPage
  else .NormalPacket

/-- One `write_packet` call handed to the external ogg writer: payload
bytes, stream serial, end info, granule position. -/
structure WriteRec where
  data : List Nat
  serial : Nat
  endInfo : PacketWriteEndInfo
  absgp : Nat
  deriving DecidableEq

/-- The pass-through `write_packet` call for one packet. -/
def writeRecOf (p : Packet) : WriteRec := ⟨p.data, p.serial, get_end_info p, p.absgp⟩

/-- `str::split_once('=')` at the byte level: in valid UTF-8 the byte 61
occurs exactly at the character `=`. -/
def splitOnce61 : RStr → Option (RStr × RStr)
  | [] => none
  | b :: r =>
    if b = 61 then some ([], r)
    else (splitOnce61 r).map (fun p => (b :: p.1, p.2))

/-- The entry-reading loop of `Tag::read_from`: `comment_count`
iterations of length-prefixed UTF-8 `key=value` strings; any failure
aborts the whole read. -/
def readComments : Nat → List Nat → Except Error (List (RStr × RStr))
  | 0, _ => .ok []
  | n + 1, l => do
    let (lenB, l) ← readExact 4 l
    let (cb, l) ← readExact (fromLe32 lenB) l
    let comment ← fromUtf8 cb
    match splitOnce61 comment with
    | some kv => do
      let rest ← readComments n l
      .ok (kv :: rest)
    | none => .error (.MalformedComment comment)

/-- The comment-header parsing part of `Tag::read_from`, applied to the
second packet's payload.  The source seeks 8 bytes past the start of the
payload without inspecting them (`cursor.seek_relative(8)` with the
comment `length of string "OpusTags"`); a `Cursor` seek past the end
succeeds, and any later `read_exact` then fails. -/
def Tag.readTags (payload : List Nat) : Except Error Tag := do
  let l := payload.drop 8
  let (vlB, l) ← readExact 4 l
  let (vb, l) ← readExact (fromLe32 vlB) l
  let vendor ← fromUtf8 vb
  let (cntB, l) ← readExact 4 l
  let comments ← readComments (fromLe32 cntB) l
  .ok (Tag.new vendor comments)

/-- `Tag::read_from`, over the sequence of packets the external ogg
reader yields. -/
def Tag.read_from (packets : List Packet) : Except Error Tag :=
  match packets with
  | [] => .error .MissingPacket
  | p1 :: rest =>
    if (strBytes "OpusHead").isPrefixOf p1.data then
      match rest with
      | [] => .error .MissingPacket
      | p2 :: _ => Tag.readTags p2.data
    else .error .NotOpus

/-- The entry-encoding loop of `Tag::to_packet_data`: each formatted
`key=value` string is length-prefixed; an oversized one aborts with
`TooBigError`. -/
def encodeEntries : List RStr → Except Error (List Nat)
  | [] => .ok []
  | e :: rest =>
    if e.length < 4294967296 then do
      let r ← encodeEntries rest
      .ok (le32 e.length ++ e ++ r)
    else .error .TooBigError

/-- The `formatted_tags` loop of `Tag::to_packet_data`: one
`"key=value"` string per stored value, keys in map iteration order,
values of one key in vector order (`=` is byte 61). -/
def formattedTags (m : CommentMap) : List RStr :=
  m.foldr (fun kv acc => kv.2.map (fun v => kv.1 ++ 61 :: v) ++ acc) []

/-- `Tag::to_packet_data`: magic, length-prefixed vendor, entry count,
then one length-prefixed `key=value` entry per stored value ( `=` is
byte 61). -/
def Tag.to_packet_data (t : Tag) : Except Error (List Nat) :=
  let formatted := formattedTags t.comments
  if t.vendor.length < 4294967296 then
    if formatted.length < 4294967296 then do
      let body ← encodeEntries formatted
      .ok (strBytes "OpusTags" ++ le32 t.vendor.length ++ t.vendor
        ++ le32 formatted.length ++ body)
    else .error .TooBigError
  else .error .TooBigError

/-- `Tag::write_to`, over the packet sequence of the source stream; the
result is the list of `write_packet` calls issued to the ogg writer
backing the in-memory staging buffer. -/
def Tag.write_to (t : Tag) (packets : List Packet) : Except Error (List WriteRec) :=
  match packets with
  | [] => .error .MissingPacket
  | p1 :: rest =>
    match rest with
    | [] => .error .MissingPacket
    | p2 :: rest2 => do
      let newData ← t.to_packet_data
      .ok (writeRecOf p1
        :: ⟨newData, p2.serial, .EndPage, p2.absgp⟩
        :: rest2.map writeRecOf)

theorem ok_bind {α β : Type} (x : α) (f : α → Except Error β) :
    (Except.ok x >>= f) = f x := rfl

theorem error_bind {α β : Type} (e : Error) (f : α → Except Error β) :
    ((Except.error e : Except Error α) >>= f) = .error e := rfl

theorem readExact_of_length (n : Nat) (a b : List Nat) (h : a.length = n) :
    readExact n (a ++ b) = .ok (a, b) := by
  subst h
  unfold readExact
  rw [if_pos (by simp)]
  rw [List.take_left, List.drop_left]

theorem readExact_short (n : Nat) (l : List Nat) (h : l.length < n) :
    readExact n l = .error .DataError := by
  unfold readExact
  rw [if_neg (by omega)]

theorem splitOnce61_append (k v : RStr) (hk : 61 ∉ k) :
    splitOnce61 (k ++ 61 :: v) = some (k, v) := by
  induction k with
  | nil => simp [splitOnce61]
  | cons b r ih =>
    rw [List.cons_append, splitOnce61]
    rw [if_neg (by intro h; exact hk (by simp [h]))]
    rw [ih (fun h => hk (List.mem_cons_of_mem _ h))]
    rfl

/-- C1: for every container stream whose first two packets exist (and
whose tag encodes, which is what `write_to` succeeding means), `write_to`
emits the first packet and every packet after the second byte-identical,
with serial id, granule position and the end-of-page/end-of-stream flags
(as mapped by `get_end_info`) preserved exactly, while the replacement
second packet carries the newly encoded bytes, reuses the original second
packet's serial id and granule position, and has its end info forced to
`EndPage`. -/
theorem write_to_frame_effect (t : Tag) (p1 p2 : Packet) (rest : List Packet)
    (d : List Nat) (henc : t.to_packet_data = .ok d) :
    t.write_to (p1 :: p2 :: rest) =
      .ok (⟨p1.data, p1.serial, get_end_info p1, p1.absgp⟩
        :: ⟨d, p2.serial, .EndPage, p2.absgp⟩
        :: rest.map (fun p => ⟨p.data, p.serial, get_end_info p, p.absgp⟩)) := by
  simp only [Tag.write_to, henc, ok_bind]
  rfl

theorem write_to_frame_effect_witness :
    (⟨[], []⟩ : Tag).write_to
        [⟨strBytes "OpusHead", 5, 0, false, true⟩, ⟨[1], 5, 7, false, true⟩,
          ⟨[2, 3], 5, 9, true, false⟩] =
      .ok [⟨strBytes "OpusHead", 5, get_end_info ⟨strBytes "OpusHead", 5, 0, false, true⟩, 0⟩,
        ⟨strBytes "OpusTags" ++ [0, 0, 0, 0] ++ [0, 0, 0, 0], 5, .EndPage, 7⟩,
        ⟨[2, 3], 5, get_end_info ⟨[2, 3], 5, 9, true, false⟩, 9⟩] :=
  write_to_frame_effect ⟨[], []⟩ ⟨strBytes "OpusHead", 5, 0, false, true⟩
    ⟨[1], 5, 7, false, true⟩ [⟨[2, 3], 5, 9, true, false⟩]
    (strBytes "OpusTags" ++ [0, 0, 0, 0] ++ [0, 0, 0, 0]) (by decide)

/-- C3 (refutation of the claimed behavior): `read_from` never verifies
the 8-byte `"OpusTags"` magic — it seeks straight past those bytes — so a
second packet beginning with 8 arbitrary non-magic bytes followed by a
well-formed empty body decodes successfully instead of failing. -/
theorem read_from_skips_magic :
    Tag.read_from
        [⟨strBytes "OpusHead", 1, 0, false, true⟩,
          ⟨strBytes "AAAAAAAA" ++ [0, 0, 0, 0] ++ [0, 0, 0, 0], 1, 0, false, true⟩] =
      .ok ⟨[], []⟩ := by decide

/-- C9: picture-type conversion succeeds exactly for the codes 0 through
20 (returning the variant with that discriminant) and fails with
`InvalidPictureType` for every larger code. -/
theorem from_u32_range (n : Nat) :
    (n ≤ 20 → ∃ pt, PictureType.from_u32 n = .ok pt ∧ pt.toU32 = n) ∧
    (20 < n → PictureType.from_u32 n = .error .InvalidPictureType) := by
  constructor
  · intro h
    refine ⟨PictureType.transmuteU32 n, ?_, ?_⟩
    · unfold PictureType.from_u32
      rw [if_neg (by omega)]
    · have hall : ∀ m, m ≤ 20 → (PictureType.transmuteU32 m).toU32 = m := by decide
      exact hall n h
  · intro h
    unfold PictureType.from_u32
    rw [if_pos (by omega)]

theorem from_u32_range_witness :
    (∃ pt, PictureType.from_u32 20 = .ok pt ∧ pt.toU32 = 20) ∧
    PictureType.from_u32 21 = .error .InvalidPictureType :=
  ⟨(from_u32_range 20).1 (by decide), (from_u32_range 21).2 (by decide)⟩

theorem toU32_le (pt : PictureType) : pt.toU32 ≤ 20 := by
  cases pt <;> simp [PictureType.toU32]

theorem from_u32_toU32 (pt : PictureType) :
    PictureType.from_u32 pt.toU32 = .ok pt := by
  cases pt <;> rfl

theorem mapError_ok {ε ε' α : Type} (x : α) (f : ε → ε') :
    (Except.ok x : Except ε α).mapError f = .ok x := rfl

theorem mapError_error {ε ε' α : Type} (e : ε) (f : ε → ε') :
    (Except.error e : Except ε α).mapError f = (.error (f e) : Except ε' α) := rfl

theorem readExact_be32 (n : Nat) (b : List Nat) :
    readExact 4 (be32 n ++ b) = .ok (be32 n, b) :=
  readExact_of_length 4 (be32 n) b (be32_length n)

theorem readExact_le32 (n : Nat) (b : List Nat) :
    readExact 4 (le32 n ++ b) = .ok (le32 n, b) :=
  readExact_of_length 4 (le32 n) b (le32_length n)

theorem readExact_self (a b : List Nat) :
    readExact a.length (a ++ b) = .ok (a, b) :=
  readExact_of_length a.length a b rfl

theorem readExact_all (l : List Nat) : readExact l.length l = .ok (l, []) := by
  unfold readExact
  rw [if_pos (by omega)]
  simp

/-- C7: for every picture whose mime type, description and data lengths
fit the 32-bit prefixes, `to_bytes` writes the four geometry fields as
zero (16 zero bytes), and `from_bytes` recovers the picture exactly from
the wire image with *any* 16 bytes in the geometry slot — nonzero
geometry is read and discarded, never an error. -/
theorem picture_roundtrip (p : Picture) (geo : List Nat)
    (hgeo : geo.length = 16)
    (hm : utf8Valid p.mime_type) (hd : utf8Valid p.description)
    (hml : p.mime_type.length < 4294967296)
    (hdl : p.description.length < 4294967296)
    (hdal : p.data.length < 4294967296) :
    p.to_bytes = .ok (p.bytesWithGeo (List.replicate 16 0)) ∧
    Picture.from_bytes (p.bytesWithGeo geo) = .ok p := by
  constructor
  · unfold Picture.to_bytes Picture.bytesWithGeo
    rw [if_pos hml, if_pos hdl, if_pos hdal]
  · have htype : fromBe32 (be32 p.picture_type.toU32) = p.picture_type.toU32 :=
      fromBe32_be32 _ (by have := toU32_le p.picture_type; omega)
    have hdrop : ∀ b : List Nat, (geo ++ b).drop 16 = b := by
      intro b
      rw [← hgeo, List.drop_left]
    simp only [Picture.bytesWithGeo, Picture.from_bytes, List.append_assoc,
      readExact_be32, ok_bind, htype, from_u32_toU32, mapError_ok,
      fromBe32_be32 p.mime_type.length hml, fromBe32_be32 p.description.length hdl,
      fromBe32_be32 p.data.length hdal, readExact_self, fromUtf8, hm, hd, if_true,
      hdrop, readExact_all]

theorem picture_roundtrip_witness :
    ((⟨.CoverFront, strBytes "image/png", strBytes "d", [7, 8]⟩ : Picture).to_bytes =
      .ok ((⟨.CoverFront, strBytes "image/png", strBytes "d", [7, 8]⟩ : Picture).bytesWithGeo
        (List.replicate 16 0))) ∧
    Picture.from_bytes
        ((⟨.CoverFront, strBytes "image/png", strBytes "d", [7, 8]⟩ : Picture).bytesWithGeo
          (List.replicate 16 255)) =
      .ok ⟨.CoverFront, strBytes "image/png", strBytes "d", [7, 8]⟩ :=
  picture_roundtrip ⟨.CoverFront, strBytes "image/png", strBytes "d", [7, 8]⟩
    (List.replicate 16 255) (by decide) (by decide) (by decide) (by decide) (by decide)
    (by decide)

theorem mapGet_upsert_self (m : CommentMap) (k : RStr) (f : List RStr → List RStr)
    (d : List RStr) :
    mapGet (mapUpsert m k f d) k = some ((mapGet m k).elim d f) := by
  induction m with
  | nil => simp [mapGet, mapUpsert]
  | cons kv rest ih =>
    obtain ⟨k', vs⟩ := kv
    by_cases h : k' = k
    · subst h
      simp [mapGet, mapUpsert]
    · simp only [mapUpsert, mapGet, if_neg h]
      exact ih

theorem mapGet_upsert_ne (m : CommentMap) (k k' : RStr) (f : List RStr → List RStr)
    (d : List RStr) (h : k' ≠ k) :
    mapGet (mapUpsert m k f d) k' = mapGet m k' := by
  induction m with
  | nil =>
    simp only [mapUpsert, mapGet]
    rw [if_neg (Ne.symm h)]
  | cons kv rest ih =>
    obtain ⟨k0, vs⟩ := kv
    by_cases h0 : k0 = k
    · subst h0
      simp only [mapUpsert, if_pos rfl, mapGet]
      rw [if_neg (Ne.symm h), if_neg (Ne.symm h)]
    · simp only [mapUpsert, if_neg h0, mapGet]
      by_cases h1 : k0 = k'
      · rw [if_pos h1, if_pos h1]
      · rw [if_neg h1, if_neg h1]
        exact ih

theorem mapGet_eq_none_of_not_mem (m : CommentMap) (k : RStr)
    (h : k ∉ m.map Prod.fst) : mapGet m k = none := by
  induction m with
  | nil => rfl
  | cons kv rest ih =>
    obtain ⟨k0, vs⟩ := kv
    simp only [List.map_cons, List.mem_cons] at h
    push_neg at h
    simp only [mapGet]
    rw [if_neg (Ne.symm h.1)]
    exact ih h.2

/-- All `(key, value)` pairs a comment map stores, keys in map order,
values of one key in vector order. -/
def pairsOf (m : CommentMap) : List (RStr × RStr) :=
  m.foldr (fun kv acc => kv.2.map (fun v => (kv.1, v)) ++ acc) []

theorem formattedTags_eq_pairsOf (m : CommentMap) :
    formattedTags m = (pairsOf m).map (fun p => p.1 ++ 61 :: p.2) := by
  induction m with
  | nil => rfl
  | cons kv rest ih =>
    simp only [formattedTags, pairsOf, List.foldr_cons, List.map_append, List.map_map] at ih ⊢
    rw [ih]
    rfl

/-- The values that `Tag::new` accumulates under `key` from a pair
list. -/
def filterVals (ps : List (RStr × RStr)) (key : RStr) : List RStr :=
  ps.filterMap (fun p => if lowerAscii p.1 = key then some p.2 else none)

/-- The fold inside `Tag::new`, starting from an arbitrary map. -/
def newFold (m0 : CommentMap) (ps : List (RStr × RStr)) : CommentMap :=
  ps.foldl (fun m kv => mapUpsert m (lowerAscii kv.1) (fun v => v ++ [kv.2]) [kv.2]) m0

theorem new_comments (vendor : RStr) (ps : List (RStr × RStr)) :
    (Tag.new vendor ps).comments = newFold [] ps := rfl

theorem newFold_get (ps : List (RStr × RStr)) :
    ∀ m0 key, mapGet (newFold m0 ps) key =
      if mapGet m0 key = none ∧ filterVals ps key = [] then none
      else some ((mapGet m0 key).getD [] ++ filterVals ps key) := by
  induction ps with
  | nil =>
    intro m0 key
    simp only [newFold, List.foldl_nil, filterVals, List.filterMap_nil, List.append_nil]
    cases h : mapGet m0 key with
    | none => simp
    | some vs => simp
  | cons p rest ih =>
    intro m0 key
    have hstep : newFold m0 (p :: rest) =
        newFold (mapUpsert m0 (lowerAscii p.1) (fun v => v ++ [p.2]) [p.2]) rest := rfl
    rw [hstep, ih]
    by_cases hk : lowerAscii p.1 = key
    · have hfv : filterVals (p :: rest) key = p.2 :: filterVals rest key := by
        simp [filterVals, List.filterMap_cons, hk]
      have hg : mapGet (mapUpsert m0 (lowerAscii p.1) (fun v => v ++ [p.2]) [p.2]) key =
          some ((mapGet m0 key).getD [] ++ [p.2]) := by
        rw [← hk, mapGet_upsert_self]
        cases h0 : mapGet m0 (lowerAscii p.1) <;> simp
      rw [hg, hfv]
      rw [if_neg (by simp)]
      cases h0 : mapGet m0 key <;> simp
    · have hfv : filterVals (p :: rest) key = filterVals rest key := by
        simp [filterVals, List.filterMap_cons, hk]
      have hg : mapGet (mapUpsert m0 (lowerAscii p.1) (fun v => v ++ [p.2]) [p.2]) key =
          mapGet m0 key :=
        mapGet_upsert_ne _ _ _ _ _ (fun he => hk he.symm)
      rw [hg, hfv]

theorem filterVals_append (ps qs : List (RStr × RStr)) (key : RStr) :
    filterVals (ps ++ qs) key = filterVals ps key ++ filterVals qs key := by
  simp [filterVals, List.filterMap_append]

theorem filterVals_pairsOf (m : CommentMap) (key : RStr)
    (hlow : ∀ kv ∈ m, lowerAscii kv.1 = kv.1)
    (hnodup : (m.map Prod.fst).Nodup) :
    filterVals (pairsOf m) key = (mapGet m key).getD [] := by
  induction m with
  | nil => rfl
  | cons kv rest ih =>
    obtain ⟨k, vs⟩ := kv
    have hk : lowerAscii k = k := hlow (k, vs) (by simp)
    simp only [List.map_cons, List.nodup_cons] at hnodup
    have hpair : pairsOf ((k, vs) :: rest) = vs.map (fun v => (k, v)) ++ pairsOf rest := rfl
    rw [hpair, filterVals_append]
    have hgroup : filterVals (vs.map (fun v => (k, v))) key =
        if k = key then vs else [] := by
      by_cases h : k = key
      · subst h
        simp [filterVals, List.filterMap_map, Function.comp_def, hk]
      · simp [filterVals, List.filterMap_map, Function.comp_def, hk, h]
    rw [hgroup, ih (fun kv hkv => hlow kv (List.mem_cons_of_mem _ hkv)) hnodup.2]
    by_cases h : k = key
    · subst h
      have : mapGet rest k = none :=
        mapGet_eq_none_of_not_mem rest k (by
          intro hmem
          exact hnodup.1 (by simpa using hmem))
      simp [mapGet, this]
    · simp [mapGet, h]

theorem encodeEntries_ok (entries : List RStr)
    (h : ∀ e ∈ entries, e.length < 4294967296) :
    ∃ body, encodeEntries entries = .ok body := by
  induction entries with
  | nil => exact ⟨[], rfl⟩
  | cons e rest ih =>
    obtain ⟨r, hr⟩ := ih (fun x hx => h x (List.mem_cons_of_mem _ hx))
    refine ⟨le32 e.length ++ e ++ r, ?_⟩
    simp only [encodeEntries, if_pos (h e (by simp)), hr, ok_bind]

theorem pairsOf_mem (m : CommentMap) (p : RStr × RStr) (hp : p ∈ pairsOf m) :
    ∃ kv ∈ m, kv.1 = p.1 ∧ p.2 ∈ kv.2 := by
  induction m with
  | nil => simp [pairsOf] at hp
  | cons kv rest ih =>
    have : pairsOf (kv :: rest) = kv.2.map (fun v => (kv.1, v)) ++ pairsOf rest := rfl
    rw [this, List.mem_append] at hp
    rcases hp with hp | hp
    · obtain ⟨v, hv, he⟩ := List.mem_map.mp hp
      exact ⟨kv, by simp, by rw [← he], by rw [← he]; exact hv⟩
    · obtain ⟨kv', h1, h2, h3⟩ := ih hp
      exact ⟨kv', List.mem_cons_of_mem _ h1, h2, h3⟩

theorem readComments_encoded (ps : List (RStr × RStr)) :
    (∀ p ∈ ps, utf8Valid (p.1 ++ 61 :: p.2) ∧ 61 ∉ p.1 ∧
      (p.1 ++ 61 :: p.2).length < 4294967296) →
    ∀ body, encodeEntries (ps.map fun p => p.1 ++ 61 :: p.2) = .ok body →
      readComments ps.length body = .ok ps := by
  induction ps with
  | nil =>
    intro _ body hb
    simp only [List.map_nil, encodeEntries, Except.ok.injEq] at hb
    subst hb
    rfl
  | cons p rest ih =>
    obtain ⟨k, v⟩ := p
    intro h body hb
    obtain ⟨hu, hn61, hlen⟩ := h (k, v) (by simp)
    dsimp only at hu hn61 hlen
    simp only [List.map_cons, encodeEntries, if_pos hlen] at hb
    cases hrest : encodeEntries (rest.map fun p => p.1 ++ 61 :: p.2) with
    | error e0 => rw [hrest, error_bind] at hb; cases hb
    | ok r =>
      rw [hrest, ok_bind, Except.ok.injEq] at hb
      subst hb
      have hih := ih (fun q hq => h q (List.mem_cons_of_mem _ hq)) r hrest
      have e1 : fromLe32 (le32 (k ++ 61 :: v).length) = (k ++ 61 :: v).length :=
        fromLe32_le32 _ hlen
      rw [List.length_cons, List.append_assoc]
      simp only [readComments, readExact_le32, ok_bind, e1, readExact_self,
        fromUtf8, hu, if_true, splitOnce61_append k v hn61, hih]

theorem drop8_magic (X : List Nat) : (strBytes "OpusTags" ++ X).drop 8 = X := by
  rw [show (8 : Nat) = (strBytes "OpusTags").length from rfl, List.drop_left]

/-- C2 (amended): for every TagStore whose vendor, entry count and entry
lengths fit the 32-bit prefixes **and whose keys contain no `=` byte**
(plus the representation invariants Rust enforces: strings are valid
UTF-8, stored keys are lowercase, map keys are unique), encoding then
decoding yields the same vendor and, for every key, the same value
sequence in the same order (a key with an empty value sequence and an
absent key both read back as absent). -/
theorem tag_roundtrip (t : Tag)
    (hkeys : ∀ kv ∈ t.comments, utf8Valid kv.1 ∧ lowerAscii kv.1 = kv.1 ∧ 61 ∉ kv.1)
    (hvals : ∀ kv ∈ t.comments, ∀ v ∈ kv.2, utf8Valid v)
    (hnodup : (t.comments.map Prod.fst).Nodup)
    (hvendor : utf8Valid t.vendor)
    (hlv : t.vendor.length < 4294967296)
    (hcnt : (formattedTags t.comments).length < 4294967296)
    (hel : ∀ e ∈ formattedTags t.comments, e.length < 4294967296) :
    ∃ pkt, t.to_packet_data = .ok pkt ∧
      ∃ t2, Tag.readTags pkt = .ok t2 ∧ t2.vendor = t.vendor ∧
        ∀ key, (mapGet t2.comments key).getD [] = (mapGet t.comments key).getD [] := by
  obtain ⟨body, hbody⟩ := encodeEntries_ok _ hel
  refine ⟨strBytes "OpusTags" ++ le32 t.vendor.length ++ t.vendor
    ++ le32 (formattedTags t.comments).length ++ body, ?_, ?_⟩
  · simp only [Tag.to_packet_data, if_pos hlv, if_pos hcnt, hbody, ok_bind]
  · have hps : ∀ p ∈ pairsOf t.comments, utf8Valid (p.1 ++ 61 :: p.2) ∧ 61 ∉ p.1 ∧
        (p.1 ++ 61 :: p.2).length < 4294967296 := by
      intro p hp
      obtain ⟨kv, hkv, h1, h2⟩ := pairsOf_mem _ _ hp
      have hk := hkeys kv hkv
      have hv := hvals kv hkv p.2 h2
      refine ⟨?_, h1 ▸ hk.2.2, ?_⟩
      · have h61v : utf8Valid (61 :: p.2) :=
          utf8Valid_append [61] p.2 (by decide) hv
        exact utf8Valid_append p.1 (61 :: p.2) (h1 ▸ hk.1) h61v
      · apply hel
        rw [formattedTags_eq_pairsOf]
        exact List.mem_map.mpr ⟨p, hp, rfl⟩
    have hbody2 : encodeEntries ((pairsOf t.comments).map fun p => p.1 ++ 61 :: p.2) =
        .ok body := by
      rw [← formattedTags_eq_pairsOf]
      exact hbody
    have hrc := readComments_encoded (pairsOf t.comments) hps body hbody2
    have hcount : fromLe32 (le32 (formattedTags t.comments).length) =
        (pairsOf t.comments).length := by
      rw [fromLe32_le32 _ hcnt, formattedTags_eq_pairsOf, List.length_map]
    refine ⟨Tag.new t.vendor (pairsOf t.comments), ?_, rfl, ?_⟩
    · simp only [Tag.readTags, List.append_assoc, drop8_magic, readExact_le32, ok_bind,
        fromLe32_le32 _ hlv, readExact_self, fromUtf8, hvendor, if_true, hcount, hrc]
    · intro key
      have hfv := filterVals_pairsOf t.comments key
        (fun kv hkv => (hkeys kv hkv).2.1) hnodup
      rw [new_comments, newFold_get]
      by_cases hF : filterVals (pairsOf t.comments) key = []
      · rw [if_pos ⟨rfl, hF⟩]
        rw [hF] at hfv
        simp [← hfv]
      · rw [if_neg (fun hc => hF hc.2)]
        simp [mapGet, hfv]

/-- C2 (refutation as stated): a key containing `=` (here `"a=b"`, value
`"c"`) survives encoding as the entry `"a=b=c"`, which decodes to the
pair `("a", "b=c")`: the decoded store no longer contains the original
(lowercased key, value) pair. -/
theorem tag_roundtrip_counterexample :
    Tag.to_packet_data (Tag.new [] [(strBytes "a=b", strBytes "c")]) =
      .ok (strBytes "OpusTags" ++ [0, 0, 0, 0] ++ [1, 0, 0, 0] ++ [5, 0, 0, 0]
        ++ strBytes "a=b=c") ∧
    Tag.readTags (strBytes "OpusTags" ++ [0, 0, 0, 0] ++ [1, 0, 0, 0] ++ [5, 0, 0, 0]
        ++ strBytes "a=b=c") =
      .ok ⟨[], [([97], [strBytes "b=c"])]⟩ ∧
    mapGet (Tag.new [] [(strBytes "a=b", strBytes "c")]).comments (strBytes "a=b") =
      some [strBytes "c"] ∧
    mapGet (⟨[], [([97], [strBytes "b=c"])]⟩ : Tag).comments (strBytes "a=b") = none := by
  decide

theorem tag_roundtrip_witness :
    ∃ pkt,
      (⟨strBytes "vend", [(strBytes "artist", [strBytes "X", strBytes "Y"])]⟩ : Tag).to_packet_data =
        .ok pkt ∧
      ∃ t2, Tag.readTags pkt = .ok t2 ∧ t2.vendor = strBytes "vend" ∧
        ∀ key, (mapGet t2.comments key).getD [] =
          (mapGet (⟨strBytes "vend",
            [(strBytes "artist", [strBytes "X", strBytes "Y"])]⟩ : Tag).comments key).getD [] :=
  tag_roundtrip ⟨strBytes "vend", [(strBytes "artist", [strBytes "X", strBytes "Y"])]⟩
    (by decide) (by decide) (by decide) (by decide) (by decide) (by decide) (by decide)

theorem removalIndexAux_no_match (pt : PictureType) (l : List RStr) :
    ∀ i cur, (∀ j (hj : j < l.length), ¬ matchesType (l.get ⟨j, hj⟩) pt) →
      removalIndexAux pt l i cur = cur := by
  induction l with
  | nil => intro i cur _; rfl
  | cons s rest ih =>
    intro i cur h
    have h0 : ¬ matchesType s pt := h 0 (by simp)
    simp only [removalIndexAux, if_neg h0]
    exact ih (i + 1) cur (fun j hj => h (j + 1) (by simpa using Nat.succ_lt_succ hj))

theorem removalIndexAux_last_match (pt : PictureType) (l : List RStr) :
    ∀ i cur j (hj : j < l.length), matchesType (l.get ⟨j, hj⟩) pt →
      (∀ j' (hj' : j' < l.length), j < j' → ¬ matchesType (l.get ⟨j', hj'⟩) pt) →
      removalIndexAux pt l i cur = i + j := by
  induction l with
  | nil => intro i cur j hj; simp at hj
  | cons s rest ih =>
    intro i cur j hj hm hlast
    match j with
    | 0 =>
      have h0 : matchesType s pt := hm
      simp only [removalIndexAux, if_pos h0]
      rw [removalIndexAux_no_match pt rest (i + 1) i
        (fun j' hj' => by
          have := hlast (j' + 1) (by simpa using Nat.succ_lt_succ hj') (by omega)
          simpa using this)]
      omega
    | j' + 1 =>
      have hj2 : j' < rest.length := by simpa using hj
      simp only [removalIndexAux]
      rw [ih (i + 1) (if matchesType s pt then i else cur) j' hj2 (by simpa using hm)
        (fun j'' hj'' hgt => by
          have := hlast (j'' + 1) (by simpa using Nat.succ_lt_succ hj'') (by omega)
          simpa using this)]
      omega

theorem removalIndexAux_bound (pt : PictureType) (l : List RStr) :
    ∀ i cur, cur < i + l.length → removalIndexAux pt l i cur < i + l.length := by
  induction l with
  | nil => intro i cur h; simpa using h
  | cons s rest ih =>
    intro i cur h
    simp only [removalIndexAux]
    have : (if matchesType s pt then i else cur) < (i + 1) + rest.length := by
      split_ifs <;> simp only [List.length_cons] at h <;> omega
    have hres := ih (i + 1) _ this
    simp only [List.length_cons]
    omega

theorem removalIndex_lt (pics : List RStr) (pt : PictureType) (h : pics ≠ []) :
    removalIndex pics pt < pics.length := by
  have hlen : 0 < pics.length := List.length_pos.mpr h
  have := removalIndexAux_bound pt pics 0 0 (by omega)
  simpa using this

/-- C10: whenever `metadata_block_picture`, if present, holds a non-empty
vector, the scan's removal index (last match, or the fallback 0) is
strictly below the vector length, so `Vec::remove` cannot panic and
`remove_picture_type` always returns (no `none`/panic outcome). -/
theorem remove_picture_type_no_panic (t : Tag) (pt : PictureType)
    (h : ∀ vs, mapGet t.comments mbpKey = some vs → vs ≠ []) :
    (∀ vs, mapGet t.comments mbpKey = some vs → removalIndex vs pt < vs.length) ∧
    t.remove_picture_type pt ≠ none := by
  constructor
  · intro vs hvs
    exact removalIndex_lt vs pt (h vs hvs)
  · unfold Tag.remove_picture_type
    cases hvs : mapGet t.comments mbpKey with
    | none => simp
    | some vs =>
      have hlt := removalIndex_lt vs pt (h vs hvs)
      simp only [dif_pos hlt]
      simp

theorem remove_picture_type_no_panic_witness :
    ((∀ vs, mapGet (⟨[], [(mbpKey, [[65]])]⟩ : Tag).comments mbpKey = some vs →
        removalIndex vs PictureType.Other < vs.length) ∧
      (⟨[], [(mbpKey, [[65]])]⟩ : Tag).remove_picture_type PictureType.Other ≠ none) :=
  remove_picture_type_no_panic ⟨[], [(mbpKey, [[65]])]⟩ PictureType.Other
    (by intro vs hvs; cases hvs; decide)

/-- C5: `remove_picture_type` (i) returns `Ok(None)` without mutating
when the key is absent; (ii) when some entry decodes to the requested
type, removes exactly the last such entry (skipping entries that fail to
decode) and returns its decoded picture; (iii) when the key is present
with a non-empty vector but no entry decodes to the requested type,
removes the entry at index 0 unconditionally, returning that entry's
decode result. -/
theorem remove_picture_type_behavior (t : Tag) (pt : PictureType) :
    (mapGet t.comments mbpKey = none → t.remove_picture_type pt = some (.ok none, t)) ∧
    (∀ vs, mapGet t.comments mbpKey = some vs →
      (∀ i (hi : i < vs.length), matchesType (vs.get ⟨i, hi⟩) pt →
        (∀ j (hj : j < vs.length), i < j → ¬ matchesType (vs.get ⟨j, hj⟩) pt) →
        t.remove_picture_type pt =
          some ((Picture.from_base64 (vs.get ⟨i, hi⟩)).map Option.some,
            { t with comments := mapSet t.comments mbpKey (vs.eraseIdx i) })) ∧
      ((∀ j (hj : j < vs.length), ¬ matchesType (vs.get ⟨j, hj⟩) pt) →
        ∀ (hne : vs ≠ []),
        t.remove_picture_type pt =
          some ((Picture.from_base64 (vs.get ⟨0, List.length_pos.mpr hne⟩)).map Option.some,
            { t with comments := mapSet t.comments mbpKey (vs.eraseIdx 0) }))) := by
  refine ⟨?_, ?_⟩
  · intro h
    unfold Tag.remove_picture_type
    rw [h]
  · intro vs hvs
    constructor
    · intro i hi hm hlast
      have hidx : removalIndex vs pt = i := by
        have := removalIndexAux_last_match pt vs 0 0 i hi hm
          (fun j' hj' hgt => hlast j' hj' hgt)
        simpa [removalIndex] using this
      unfold Tag.remove_picture_type
      rw [hvs]
      simp only [hidx, dif_pos hi]
    · intro hnone hne
      have hidx : removalIndex vs pt = 0 :=
        removalIndexAux_no_match pt vs 0 0 hnone
      unfold Tag.remove_picture_type
      rw [hvs]
      simp only [hidx, dif_pos (List.length_pos.mpr hne)]

theorem remove_picture_type_behavior_witness :
    (⟨[], [(mbpKey, [List.replicate 43 65 ++ [61]])]⟩ : Tag).remove_picture_type
        PictureType.Other =
      some ((Picture.from_base64 ((List.replicate 43 65 ++ [61] : RStr))).map Option.some,
        { vendor := [],
          comments := mapSet [(mbpKey, [List.replicate 43 65 ++ [61]])] mbpKey
            ([List.replicate 43 65 ++ [61]].eraseIdx 0) }) := by
  have h := ((remove_picture_type_behavior
    ⟨[], [(mbpKey, [List.replicate 43 65 ++ [61]])]⟩ PictureType.Other).2
      [List.replicate 43 65 ++ [61]] (by decide)).1 0 (by decide) (by decide)
      (fun j hj hgt => by simp at hj; omega)
  exact h

/-- States of a `Tag` reachable through the public API, starting from
`Tag::default()` (the empty tag) or `Tag::new`.  The picture operations
carry their actual outcome: a panicking call (`none`) yields no state. -/
inductive Reachable : Tag → Prop where
  | tag_default : Reachable ⟨[], []⟩
  | tag_new (v : RStr) (ps : List (RStr × RStr)) : Reachable (Tag.new v ps)
  | step_add_one (t : Tag) (k v : RStr) : Reachable t → Reachable (t.add_one k v)
  | step_add_many (t : Tag) (k : RStr) (vs : List RStr) :
      Reachable t → Reachable (t.add_many k vs)
  | step_remove_entries (t : Tag) (k : RStr) :
      Reachable t → Reachable (t.remove_entries k).2
  | step_set_vendor (t : Tag) (v : RStr) : Reachable t → Reachable (t.set_vendor v)
  | step_add_picture (t : Tag) (p : Picture) (r : Except Error Unit) (t' : Tag) :
      Reachable t → t.add_picture p = some (r, t') → Reachable t'
  | step_remove_picture_type (t : Tag) (pt : PictureType)
      (r : Except Error (Option Picture)) (t' : Tag) :
      Reachable t → t.remove_picture_type pt = some (r, t') → Reachable t'

/-- As `Reachable`, but `add_many` is only ever called with a non-empty
values list. -/
inductive ReachableNE : Tag → Prop where
  | tag_default : ReachableNE ⟨[], []⟩
  | tag_new (v : RStr) (ps : List (RStr × RStr)) : ReachableNE (Tag.new v ps)
  | step_add_one (t : Tag) (k v : RStr) : ReachableNE t → ReachableNE (t.add_one k v)
  | step_add_many (t : Tag) (k : RStr) (vs : List RStr) (hvs : vs ≠ []) :
      ReachableNE t → ReachableNE (t.add_many k vs)
  | step_remove_entries (t : Tag) (k : RStr) :
      ReachableNE t → ReachableNE (t.remove_entries k).2
  | step_set_vendor (t : Tag) (v : RStr) : ReachableNE t → ReachableNE (t.set_vendor v)
  | step_add_picture (t : Tag) (p : Picture) (r : Except Error Unit) (t' : Tag) :
      ReachableNE t → t.add_picture p = some (r, t') → ReachableNE t'
  | step_remove_picture_type (t : Tag) (pt : PictureType)
      (r : Except Error (Option Picture)) (t' : Tag) :
      ReachableNE t → t.remove_picture_type pt = some (r, t') → ReachableNE t'

/-- The invariant that survives: only `metadata_block_picture` can ever
hold an empty value vector. -/
def MapInv (m : CommentMap) : Prop :=
  ∀ kv ∈ m, kv.1 = mbpKey ∨ kv.2 ≠ []

theorem mem_mapUpsert (m : CommentMap) (k : RStr) (f : List RStr → List RStr)
    (d : List RStr) (kv : RStr × List RStr) (h : kv ∈ mapUpsert m k f d) :
    kv ∈ m ∨ kv = (k, d) ∨ ∃ vs, (k, vs) ∈ m ∧ kv = (k, f vs) := by
  induction m with
  | nil =>
    simp only [mapUpsert, List.mem_singleton] at h
    exact Or.inr (Or.inl h)
  | cons kv0 rest ih =>
    obtain ⟨k0, vs0⟩ := kv0
    by_cases h0 : k0 = k
    · subst h0
      simp [mapUpsert] at h
      rcases h with h | h
      · exact Or.inr (Or.inr ⟨vs0, by simp, h⟩)
      · exact Or.inl (List.mem_cons_of_mem _ h)
    · simp only [mapUpsert, if_neg h0, List.mem_cons] at h
      rcases h with h | h
      · exact Or.inl (by simp [h])
      · rcases ih h with h1 | h1 | ⟨vs, h1, h2⟩
        · exact Or.inl (List.mem_cons_of_mem _ h1)
        · exact Or.inr (Or.inl h1)
        · exact Or.inr (Or.inr ⟨vs, List.mem_cons_of_mem _ h1, h2⟩)

theorem mem_mapRemove (m : CommentMap) (k : RStr) (kv : RStr × List RStr)
    (h : kv ∈ mapRemove m k) : kv ∈ m := by
  induction m with
  | nil => simp [mapRemove] at h
  | cons kv0 rest ih =>
    obtain ⟨k0, vs0⟩ := kv0
    by_cases h0 : k0 = k
    · subst h0
      simp [mapRemove] at h
      exact List.mem_cons_of_mem _ h
    · simp only [mapRemove, if_neg h0, List.mem_cons] at h
      rcases h with h | h
      · simp [h]
      · exact List.mem_cons_of_mem _ (ih h)

theorem mem_mapSet (m : CommentMap) (k : RStr) (nv : List RStr) (kv : RStr × List RStr)
    (h : kv ∈ mapSet m k nv) : kv ∈ m ∨ kv.1 = k := by
  induction m with
  | nil => simp [mapSet] at h
  | cons kv0 rest ih =>
    obtain ⟨k0, vs0⟩ := kv0
    by_cases h0 : k0 = k
    · subst h0
      simp [mapSet] at h
      rcases h with h | h
      · exact Or.inr (by simp [h])
      · exact Or.inl (List.mem_cons_of_mem _ h)
    · simp only [mapSet, if_neg h0, List.mem_cons] at h
      rcases h with h | h
      · exact Or.inl (by simp [h])
      · rcases ih h with h1 | h1
        · exact Or.inl (List.mem_cons_of_mem _ h1)
        · exact Or.inr h1

theorem mapInv_upsert_nonempty (m : CommentMap) (k : RStr)
    (f : List RStr → List RStr) (d : List RStr) (hm : MapInv m)
    (hd : d ≠ []) (hf : ∀ vs, f vs ≠ []) : MapInv (mapUpsert m k f d) := by
  intro kv hkv
  rcases mem_mapUpsert m k f d kv hkv with h | h | ⟨vs, _, h⟩
  · exact hm kv h
  · exact Or.inr (by rw [h]; exact hd)
  · exact Or.inr (by rw [h]; exact hf vs)

theorem mapInv_newFold (ps : List (RStr × RStr)) :
    ∀ m0, MapInv m0 → MapInv (newFold m0 ps) := by
  induction ps with
  | nil => intro m0 h; exact h
  | cons p rest ih =>
    intro m0 h
    have hstep : newFold m0 (p :: rest) =
        newFold (mapUpsert m0 (lowerAscii p.1) (fun v => v ++ [p.2]) [p.2]) rest := rfl
    rw [hstep]
    exact ih _ (mapInv_upsert_nonempty m0 _ _ _ h (by simp) (by simp))

theorem mapInv_add_one (t : Tag) (k v : RStr) (h : MapInv t.comments) :
    MapInv (t.add_one k v).comments :=
  mapInv_upsert_nonempty t.comments _ _ _ h (by simp) (by simp)

theorem mapInv_add_many (t : Tag) (k : RStr) (vs : List RStr) (hvs : vs ≠ [])
    (h : MapInv t.comments) : MapInv (t.add_many k vs).comments :=
  mapInv_upsert_nonempty t.comments _ _ _ h hvs
    (fun l => by simp [hvs])

theorem mapInv_remove_picture_type (t : Tag) (pt : PictureType)
    (r : Except Error (Option Picture)) (t' : Tag)
    (hr : t.remove_picture_type pt = some (r, t')) (h : MapInv t.comments) :
    MapInv t'.comments := by
  unfold Tag.remove_picture_type at hr
  cases hvs : mapGet t.comments mbpKey with
  | none =>
    rw [hvs] at hr
    simp only [Option.some.injEq, Prod.mk.injEq] at hr
    obtain ⟨-, rfl⟩ := hr
    exact h
  | some vs =>
    rw [hvs] at hr
    dsimp only at hr
    by_cases hlt : removalIndex vs pt < vs.length
    · rw [dif_pos hlt] at hr
      simp only [Option.some.injEq, Prod.mk.injEq] at hr
      obtain ⟨-, rfl⟩ := hr
      intro kv hkv
      rcases mem_mapSet t.comments mbpKey _ kv hkv with h1 | h1
      · exact h kv h1
      · exact Or.inl h1
    · rw [dif_neg hlt] at hr
      cases hr

theorem mapInv_add_picture (t : Tag) (p : Picture) (r : Except Error Unit) (t' : Tag)
    (hr : t.add_picture p = some (r, t')) (h : MapInv t.comments) :
    MapInv t'.comments := by
  unfold Tag.add_picture at hr
  cases hrem : t.remove_picture_type p.picture_type with
  | none => rw [hrem] at hr; cases hr
  | some res =>
    obtain ⟨r0, t0⟩ := res
    have h0 : MapInv t0.comments := mapInv_remove_picture_type t p.picture_type r0 t0 hrem h
    rw [hrem] at hr
    cases r0 with
    | error e =>
      simp only [Option.some.injEq, Prod.mk.injEq] at hr
      obtain ⟨-, rfl⟩ := hr
      exact h0
    | ok u =>
      cases henc : p.to_base64 with
      | error e =>
        rw [henc] at hr
        simp only [Option.some.injEq, Prod.mk.injEq] at hr
        obtain ⟨-, rfl⟩ := hr
        exact h0
      | ok data =>
        rw [henc] at hr
        simp only [Option.some.injEq, Prod.mk.injEq] at hr
        obtain ⟨-, rfl⟩ := hr
        exact mapInv_add_one t0 _ data h0

/-- C4 (amended): starting from the empty tag or `Tag::new` and applying
any sequence of public operations in which `add_many` is always given a
non-empty values list, every key other than `metadata_block_picture`
always maps to a non-empty value sequence.  (`metadata_block_picture`
itself can be left empty by `remove_picture_type` and by a failing
`add_picture`.) -/
theorem reachable_no_empty_values (t : Tag) (h : ReachableNE t) :
    ∀ kv ∈ t.comments, kv.1 ≠ mbpKey → kv.2 ≠ [] := by
  have hinv : MapInv t.comments := by
    induction h with
    | tag_default => intro kv hkv; simp at hkv
    | tag_new v ps =>
      rw [new_comments]
      exact mapInv_newFold ps [] (by intro kv hkv; simp at hkv)
    | step_add_one t0 k v _ ih => exact mapInv_add_one t0 k v ih
    | step_add_many t0 k vs hvs _ ih => exact mapInv_add_many t0 k vs hvs ih
    | step_remove_entries t0 k _ ih =>
      intro kv hkv
      exact ih kv (mem_mapRemove t0.comments _ kv hkv)
    | step_set_vendor t0 v _ ih => exact ih
    | step_add_picture t0 p r t' _ hr ih => exact mapInv_add_picture t0 p r t' hr ih
    | step_remove_picture_type t0 pt r t' _ hr ih =>
      exact mapInv_remove_picture_type t0 pt r t' hr ih
  intro kv hkv hne
  rcases hinv kv hkv with h1 | h1
  · exact absurd h1 hne
  · exact h1

theorem reachable_no_empty_values_witness :
    ([[98]] : List RStr) ≠ [] :=
  reachable_no_empty_values ((⟨[], []⟩ : Tag).add_one [97] [98])
    (.step_add_one _ _ _ .tag_default) ([97], [[98]]) (by decide) (by decide)

/-- C4 (refutation as stated): `add_many` with an empty values list
inserts the key with an empty value sequence — the resulting tag is
reachable (from the empty tag by one public call) yet stores key `"a"`
with no values. -/
theorem reachable_empty_values_counterexample :
    Reachable ((⟨[], []⟩ : Tag).add_many [97] []) ∧
    mapGet ((⟨[], []⟩ : Tag).add_many [97] []).comments [97] = some [] :=
  ⟨.step_add_many _ _ _ .tag_default, by decide⟩

theorem except_map_ok {ε α β : Type} (f : α → β) (x : α) :
    Except.map f (Except.ok x : Except ε α) = .ok (f x) := rfl

theorem be32_lt256 (n : Nat) : ∀ b ∈ be32 n, b < 256 := by
  intro b hb
  simp only [be32, List.mem_cons, List.not_mem_nil, or_false] at hb
  rcases hb with h | h | h | h <;> omega

theorem bytesWithGeo_lt256 (p : Picture) (hm : utf8Valid p.mime_type)
    (hd : utf8Valid p.description) (hdata : ∀ b ∈ p.data, b < 256) :
    ∀ b ∈ p.bytesWithGeo (List.replicate 16 0), b < 256 := by
  intro b hb
  unfold Picture.bytesWithGeo at hb
  simp only [List.append_assoc, List.mem_append] at hb
  rcases hb with h | h | h | h | h | h | h | h
  · exact be32_lt256 _ b h
  · exact be32_lt256 _ b h
  · exact utf8Valid_lt256 _ hm b h
  · exact be32_lt256 _ b h
  · exact utf8Valid_lt256 _ hd b h
  · have := List.eq_of_mem_replicate h; omega
  · exact be32_lt256 _ b h
  · exact hdata b h

/-- `from_base64 ∘ to_base64` recovers a well-formed picture exactly. -/
theorem to_base64_roundtrip (p : Picture)
    (hm : utf8Valid p.mime_type) (hd : utf8Valid p.description)
    (hml : p.mime_type.length < 4294967296)
    (hdl : p.description.length < 4294967296)
    (hdal : p.data.length < 4294967296)
    (hdata : ∀ b ∈ p.data, b < 256) :
    p.to_base64 = .ok (b64encode (p.bytesWithGeo (List.replicate 16 0))) ∧
    Picture.from_base64 (b64encode (p.bytesWithGeo (List.replicate 16 0))) = .ok p := by
  have hbytes := picture_roundtrip p (List.replicate 16 0) (by simp) hm hd hml hdl hdal
  constructor
  · unfold Picture.to_base64
    rw [hbytes.1, mapError_ok, ok_bind]
  · unfold Picture.from_base64
    rw [b64decode_b64encode _ (bytesWithGeo_lt256 p hm hd hdata)]
    exact hbytes.2

theorem mapGet_mapSet_self (m : CommentMap) (k : RStr) (nv vs : List RStr)
    (h : mapGet m k = some vs) : mapGet (mapSet m k nv) k = some nv := by
  induction m with
  | nil => simp [mapGet] at h
  | cons kv0 rest ih =>
    obtain ⟨k0, vs0⟩ := kv0
    by_cases h0 : k0 = k
    · subst h0
      simp [mapSet, mapGet]
    · simp only [mapGet, if_neg h0] at h
      simp only [mapSet, if_neg h0, mapGet, if_neg h0]
      exact ih h

theorem lower_upper_mbp : lowerAscii (strBytes "METADATA_BLOCK_PICTURE") = mbpKey := by
  decide

/-- C6 (amended): on a tag with no stored pictures, adding `P1` and then
`P2` of the same type succeeds, leaves `P2` as the picture returned for
that type, and leaves exactly one stored picture of that type.  (Both
pictures well-formed: UTF-8 strings, 32-bit lengths, byte-valued
data.) -/
theorem add_picture_per_type (t : Tag) (p1 p2 : Picture)
    (habs : mapGet t.comments mbpKey = none)
    (hpt : p1.picture_type = p2.picture_type)
    (hm1 : utf8Valid p1.mime_type) (hd1 : utf8Valid p1.description)
    (hml1 : p1.mime_type.length < 4294967296)
    (hdl1 : p1.description.length < 4294967296)
    (hdal1 : p1.data.length < 4294967296)
    (hdata1 : ∀ b ∈ p1.data, b < 256)
    (hm2 : utf8Valid p2.mime_type) (hd2 : utf8Valid p2.description)
    (hml2 : p2.mime_type.length < 4294967296)
    (hdl2 : p2.description.length < 4294967296)
    (hdal2 : p2.data.length < 4294967296)
    (hdata2 : ∀ b ∈ p2.data, b < 256) :
    ∃ t1 t2, t.add_picture p1 = some (.ok (), t1) ∧
      t1.add_picture p2 = some (.ok (), t2) ∧
      t2.get_picture_type p1.picture_type = some p2 ∧
      t2.pictures.countP (fun q => decide (q.picture_type = p1.picture_type)) = 1 := by
  obtain ⟨henc1, hdec1⟩ := to_base64_roundtrip p1 hm1 hd1 hml1 hdl1 hdal1 hdata1
  obtain ⟨henc2, hdec2⟩ := to_base64_roundtrip p2 hm2 hd2 hml2 hdl2 hdal2 hdata2
  have hrem1 : t.remove_picture_type p1.picture_type = some (.ok none, t) := by
    unfold Tag.remove_picture_type
    rw [habs]
  have hstep1 : t.add_picture p1 =
      some (.ok (), t.add_one (strBytes "METADATA_BLOCK_PICTURE")
        (b64encode (p1.bytesWithGeo (List.replicate 16 0)))) := by
    unfold Tag.add_picture
    rw [hrem1]
    dsimp only
    rw [henc1]
  set s1 : RStr := b64encode (p1.bytesWithGeo (List.replicate 16 0)) with hs1
  set s2 : RStr := b64encode (p2.bytesWithGeo (List.replicate 16 0)) with hs2
  set t1 : Tag := t.add_one (strBytes "METADATA_BLOCK_PICTURE") s1 with ht1
  have hget1 : mapGet t1.comments mbpKey = some [s1] := by
    rw [ht1]
    unfold Tag.add_one
    dsimp only
    rw [lower_upper_mbp, mapGet_upsert_self, habs]
    rfl
  have hrem2 : t1.remove_picture_type p2.picture_type =
      some (.ok (some p1), { t1 with comments := mapSet t1.comments mbpKey [] }) := by
    have hmatch : matchesType s1 p2.picture_type = true := by
      unfold matchesType
      rw [hdec1]
      simp [hpt]
    have h := ((remove_picture_type_behavior t1 p2.picture_type).2 [s1] hget1).1 0
      (by simp) (by simpa using hmatch) (fun j hj hgt => by simp at hj; omega)
    simp only [List.get] at h
    rw [hdec1, except_map_ok] at h
    simpa using h
  have hstep2 : t1.add_picture p2 =
      some (.ok (), Tag.add_one { t1 with comments := mapSet t1.comments mbpKey [] }
        (strBytes "METADATA_BLOCK_PICTURE") s2) := by
    unfold Tag.add_picture
    rw [hrem2]
    dsimp only
    rw [henc2]
  set t2 : Tag := Tag.add_one { t1 with comments := mapSet t1.comments mbpKey [] }
    (strBytes "METADATA_BLOCK_PICTURE") s2 with ht2
  have hget2 : mapGet t2.comments mbpKey = some [s2] := by
    rw [ht2]
    unfold Tag.add_one
    dsimp only
    rw [lower_upper_mbp, mapGet_upsert_self,
      mapGet_mapSet_self t1.comments mbpKey [] [s1] hget1]
    rfl
  refine ⟨t1, t2, hstep1, hstep2, ?_, ?_⟩
  · unfold Tag.get_picture_type
    rw [hget2]
    unfold findPicAux
    rw [hdec2]
    dsimp only
    rw [if_pos hpt.symm]
  · unfold Tag.pictures
    rw [hget2]
    have : (Picture.from_base64 s2).toOption = some p2 := by rw [hdec2]; rfl
    simp [List.filterMap_cons, this, List.countP_cons, hpt.symm]

/-- C6 (refutation as stated): on a tag already holding two pictures of
the shared type, `add_picture(P1)` then `add_picture(P2)` (both
succeeding) leaves `get_picture_type` returning the *old* picture, not
`P2`, and two stored pictures of that type, not one. -/
theorem add_picture_per_type_counterexample :
    ((⟨[], [(mbpKey, [List.replicate 43 65 ++ [61],
          List.replicate 43 65 ++ [61]])]⟩ : Tag).add_picture
        ⟨.Other, [120], [], []⟩).bind
      (fun r1 => (r1.2.add_picture ⟨.Other, [121], [], []⟩).map
        (fun r2 => (r1.1, r2.1, r2.2.get_picture_type PictureType.Other,
          r2.2.pictures.countP (fun q => decide (q.picture_type = PictureType.Other))))) =
      some (.ok (), .ok (), some ⟨.Other, [], [], []⟩, 2) ∧
    (⟨.Other, [], [], []⟩ : Picture) ≠ ⟨.Other, [121], [], []⟩ := by decide

theorem add_picture_per_type_witness :
    ∃ t1 t2, (⟨[], []⟩ : Tag).add_picture ⟨.Other, [120], [], []⟩ = some (.ok (), t1) ∧
      t1.add_picture ⟨.Other, [121], [], []⟩ = some (.ok (), t2) ∧
      t2.get_picture_type PictureType.Other = some ⟨.Other, [121], [], []⟩ ∧
      t2.pictures.countP (fun q => decide (q.picture_type = PictureType.Other)) = 1 :=
  add_picture_per_type ⟨[], []⟩ ⟨.Other, [120], [], []⟩ ⟨.Other, [121], [], []⟩
    (by decide) (by decide) (by decide) (by decide) (by decide) (by decide) (by decide)
    (by decide) (by decide) (by decide) (by decide) (by decide) (by decide) (by decide)

theorem splitOnce61_eq_none (s : RStr) (h : 61 ∉ s) : splitOnce61 s = none := by
  induction s with
  | nil => rfl
  | cons b r ih =>
    have hb : b ≠ 61 := fun he => h (by simp [he])
    simp only [splitOnce61, if_neg hb]
    rw [ih (fun hr => h (List.mem_cons_of_mem _ hr))]
    rfl

theorem splitOnce61_isSome (s : RStr) (h : 61 ∈ s) :
    ∃ kv, splitOnce61 s = some kv := by
  induction s with
  | nil => simp at h
  | cons b r ih =>
    by_cases hb : b = 61
    · exact ⟨([], r), by simp [splitOnce61, hb]⟩
    · have hr : 61 ∈ r := by
        rcases List.mem_cons.mp h with he | hr
        · exact absurd he.symm hb
        · exact hr
      obtain ⟨kv, hkv⟩ := ih hr
      exact ⟨(b :: kv.1, kv.2), by simp [splitOnce61, hb, hkv]⟩

/-- The length-prefixed concatenation of raw entry strings — the entry
region of a comment-header packet. -/
def rawEntries (entries : List RStr) : List Nat :=
  entries.foldr (fun e acc => le32 e.length ++ e ++ acc) []

/-- A comment-header packet (per the wire format) with the given vendor
and raw entry byte strings; used to feed `readTags` arbitrary entries. -/
def rawPacket (vendor : RStr) (entries : List RStr) : List Nat :=
  strBytes "OpusTags" ++ le32 vendor.length ++ vendor ++ le32 entries.length
    ++ rawEntries entries

theorem readComments_aborts (e : RStr) (post : List RStr)
    (he : utf8Valid e) (hne : 61 ∉ e) (hel : e.length < 4294967296) :
    ∀ pre : List RStr, (∀ x ∈ pre, utf8Valid x ∧ 61 ∈ x ∧ x.length < 4294967296) →
      readComments (pre ++ e :: post).length (rawEntries (pre ++ e :: post)) =
        .error (.MalformedComment e) := by
  intro pre
  induction pre with
  | nil =>
    intro _
    have e1 : fromLe32 (le32 e.length) = e.length := fromLe32_le32 _ hel
    have hsplit : splitOnce61 e = none := splitOnce61_eq_none e hne
    have hshape : rawEntries (e :: post) = le32 e.length ++ (e ++ rawEntries post) := by
      simp [rawEntries, List.append_assoc]
    rw [List.nil_append, List.length_cons, hshape]
    simp only [readComments, readExact_le32, ok_bind, e1, readExact_self, fromUtf8,
      he, if_true, hsplit]
  | cons x pre' ih =>
    intro hpre
    obtain ⟨hux, h61x, hlx⟩ := hpre x (by simp)
    have hih := ih (fun y hy => hpre y (List.mem_cons_of_mem _ hy))
    obtain ⟨kv, hkv⟩ := splitOnce61_isSome x h61x
    have e1 : fromLe32 (le32 x.length) = x.length := fromLe32_le32 _ hlx
    have hshape : rawEntries (x :: (pre' ++ e :: post)) =
        le32 x.length ++ (x ++ rawEntries (pre' ++ e :: post)) := by
      simp [rawEntries, List.append_assoc]
    rw [List.cons_append, List.length_cons, hshape]
    simp only [readComments, readExact_le32, ok_bind, e1, readExact_self, fromUtf8,
      hux, if_true, hkv, hih, error_bind]

/-- C8: decoding is all-or-nothing — for every valid-UTF-8 entry string
lacking `=` (byte 61), placed at any position among otherwise
well-formed entries, the whole header decode fails with
`MalformedComment` carrying exactly that string, and no TagStore is
returned. -/
theorem readTags_malformed_entry (vendor : RStr) (pre post : List RStr) (e : RStr)
    (hv : utf8Valid vendor) (hlv : vendor.length < 4294967296)
    (hcnt : (pre ++ e :: post).length < 4294967296)
    (hpre : ∀ x ∈ pre, utf8Valid x ∧ 61 ∈ x ∧ x.length < 4294967296)
    (he : utf8Valid e) (hne : 61 ∉ e) (hel : e.length < 4294967296) :
    Tag.readTags (rawPacket vendor (pre ++ e :: post)) =
      .error (.MalformedComment e) := by
  have habort := readComments_aborts e post he hne hel pre hpre
  have hcount : fromLe32 (le32 (pre ++ e :: post).length) = (pre ++ e :: post).length :=
    fromLe32_le32 _ hcnt
  simp only [rawPacket, Tag.readTags, List.append_assoc, drop8_magic, readExact_le32,
    ok_bind, fromLe32_le32 _ hlv, readExact_self, fromUtf8, hv, if_true, hcount,
    habort, error_bind]

theorem readTags_malformed_entry_witness :
    Tag.readTags (rawPacket (strBytes "v") [strBytes "a=b", strBytes "nope"]) =
      .error (.MalformedComment (strBytes "nope")) :=
  readTags_malformed_entry (strBytes "v") [strBytes "a=b"] [] (strBytes "nope")
    (by decide) (by decide) (by decide) (by decide) (by decide) (by decide) (by decide)

end Opusmeta
